import Mathlib

/-!
Shallow embedding of the request dispatch core of `vkquick/api.py`:
the name resolver (`_convert_name`), the rate limiter (`_waiting`), the
credential classifier (`define_token_owner`), the request encoder
(`_fill_request_params` and the collection flattening in
`_make_api_request`), and the response normalizer (`_check_errors` plus
the branching on `body["response"]`).

Python dictionaries are modelled as insertion-ordered association lists
with unique keys; `dinsert` is `d[k] = v` (replace in place when the key
exists, append otherwise) and `dupdate` is `d.update(other)` /
`{**d, **other}`.
-/

/-- Model of the Python values that appear as request parameters:
strings, integers, booleans, and the three collection kinds the source
flattens (`isinstance(value, (list, set, tuple))`).  A Python `set` is
represented by the list of its elements in iteration order. -/
inductive PVal where
  | str : String → PVal
  | int : Int → PVal
  | bool : Bool → PVal
  | list : List PVal → PVal
  | set : List PVal → PVal
  | tuple : List PVal → PVal

mutual
/-- Python `str(v)` for a `PVal`. -/
def pstr : PVal → String
  | .str s => s
  | .int n => toString n
  | .bool b => if b then "True" else "False"
  | .list l => "[" ++ String.intercalate ", " (preprList l) ++ "]"
  | .set l =>
      if l.isEmpty then "set()"
      else "\x7b" ++ String.intercalate ", " (preprList l) ++ "\x7d"
  | .tuple l =>
      "(" ++ String.intercalate ", " (preprList l) ++
        (if l.length = 1 then ",)" else ")")

/-- Python `repr(v)` for a `PVal` (used for elements of collections). -/
def prepr : PVal → String
  | .str s => "\x27" ++ s ++ "\x27"
  | .int n => toString n
  | .bool b => if b then "True" else "False"
  | .list l => "[" ++ String.intercalate ", " (preprList l) ++ "]"
  | .set l =>
      if l.isEmpty then "set()"
      else "\x7b" ++ String.intercalate ", " (preprList l) ++ "\x7d"
  | .tuple l =>
      "(" ++ String.intercalate ", " (preprList l) ++
        (if l.length = 1 then ",)" else ")")

/-- Reprs of the members of a list of `PVal`. -/
def preprList : List PVal → List String
  | [] => []
  | v :: vs => prepr v :: preprList vs
end

/-- An insertion-ordered Python dictionary with string keys. -/
def Dict := List (String × PVal)

/-- Python `d[k] = v`: replace the value in place when the key already
exists (keeping its position), append the pair otherwise. -/
def dinsert (d : List (String × PVal)) (k : String) (v : PVal) :
    List (String × PVal) :=
  if (d.lookup k).isSome then
    d.map (fun kv => if kv.1 = k then (k, v) else kv)
  else d ++ [(k, v)]

/-- Python `d.update(other)` / `{**d, **other}`: insert every pair of
`other`, in order, into `d`. -/
def dupdate (d other : List (String × PVal)) : List (String × PVal) :=
  other.foldl (fun acc kv => dinsert acc kv.1 kv.2) d

theorem lookup_append (d e : List (String × PVal)) (k : String) :
    (d ++ e).lookup k =
      match d.lookup k with
      | some v => some v
      | none => e.lookup k := by
  induction d with
  | nil => simp [List.lookup]
  | cons hd tl ih =>
      cases hk : (k == hd.1) with
      | true => simp [List.lookup, hk]
      | false => simp [List.lookup, hk, ih]

theorem lookup_map_replace_self (d : List (String × PVal)) (k : String)
    (v w : PVal) (h : d.lookup k = some w) :
    (d.map (fun kv => if kv.1 = k then (k, v) else kv)).lookup k = some v := by
  induction d with
  | nil => simp [List.lookup] at h
  | cons hd tl ih =>
      obtain ⟨a, b⟩ := hd
      by_cases hk : a = k
      · have hf : (if (a, b).1 = k then (k, v) else (a, b)) = ((k, v) : String × PVal) := by
          simp [hk]
        rw [List.map_cons, hf]
        simp [List.lookup]
      · have hk' : (k == a) = false := by
          simp [beq_iff_eq]; exact fun he => hk he.symm
        have hf : (if (a, b).1 = k then (k, v) else (a, b)) = ((a, b) : String × PVal) := by
          simp [hk]
        simp only [List.lookup, hk'] at h
        rw [List.map_cons, hf]
        simp only [List.lookup, hk']
        exact ih h

theorem lookup_map_replace_ne (d : List (String × PVal)) (k k' : String)
    (v : PVal) (h : k' ≠ k) :
    (d.map (fun kv => if kv.1 = k then (k, v) else kv)).lookup k' =
      d.lookup k' := by
  induction d with
  | nil => simp
  | cons hd tl ih =>
      obtain ⟨a, b⟩ := hd
      by_cases hk : a = k
      · have hf : (if (a, b).1 = k then (k, v) else (a, b)) = ((k, v) : String × PVal) := by
          simp [hk]
        have hk' : (k' == k) = false := by simp [beq_iff_eq]; exact h
        have hka : (k' == a) = false := by
          simp [beq_iff_eq]; rw [hk]; exact h
        rw [List.map_cons, hf]
        simp only [List.lookup, hk', hka]
        exact ih
      · have hf : (if (a, b).1 = k then (k, v) else (a, b)) = ((a, b) : String × PVal) := by
          simp [hk]
        rw [List.map_cons, hf]
        cases hh : (k' == a) with
        | true => simp [List.lookup, hh]
        | false => simp only [List.lookup, hh]; exact ih

theorem dinsert_lookup_self (d : List (String × PVal)) (k : String)
    (v : PVal) : (dinsert d k v).lookup k = some v := by
  unfold dinsert
  cases h : d.lookup k with
  | some w => simp [h, lookup_map_replace_self d k v w h]
  | none =>
      simp [h, lookup_append, List.lookup]

theorem dinsert_lookup_ne (d : List (String × PVal)) (k k' : String)
    (v : PVal) (h : k' ≠ k) :
    (dinsert d k v).lookup k' = d.lookup k' := by
  unfold dinsert
  cases hl : (d.lookup k).isSome with
  | true => simp [hl, lookup_map_replace_ne d k k' v h]
  | false =>
      have hk' : (k' == k) = false := by simp [beq_iff_eq]; exact h
      simp only [Bool.false_eq_true, if_false]
      rw [lookup_append]
      simp only [List.lookup, hk']
      cases List.lookup k' d <;> simp

theorem lookup_eq_none_of_not_mem_keys (d : List (String × PVal))
    (k : String) (h : k ∉ d.map Prod.fst) : d.lookup k = none := by
  induction d with
  | nil => simp
  | cons hd tl ih =>
      have h1 : k ≠ hd.1 := by
        intro he
        exact h (List.mem_cons.mpr (Or.inl he))
      have h2 : k ∉ tl.map Prod.fst := by
        intro hm
        exact h (List.mem_cons.mpr (Or.inr hm))
      have hb : (k == hd.1) = false := by simp [beq_iff_eq]; exact h1
      simp only [List.lookup, hb]
      exact ih h2

theorem not_mem_keys_of_lookup_eq_none (d : List (String × PVal))
    (k : String) (h : d.lookup k = none) : k ∉ d.map Prod.fst := by
  induction d with
  | nil => simp
  | cons hd tl ih =>
      obtain ⟨a, b⟩ := hd
      cases hk : (k == a) with
      | true => simp [List.lookup, hk] at h
      | false =>
          simp only [List.lookup, hk] at h
          intro hm
          rcases List.mem_cons.mp hm with he | ht
          · rw [he] at hk
            simp at hk
          · exact ih h ht

theorem lookup_of_mem_nodup (d : List (String × PVal)) (k : String)
    (v : PVal) (hnd : (d.map Prod.fst).Nodup) (hmem : (k, v) ∈ d) :
    d.lookup k = some v := by
  induction d with
  | nil => simp at hmem
  | cons hd tl ih =>
      rw [List.map_cons, List.nodup_cons] at hnd
      rcases List.mem_cons.mp hmem with he | ht
      · rw [← he]
        simp [List.lookup]
      · have hk : k ≠ hd.1 := by
          intro he
          exact hnd.1 (he ▸ List.mem_map_of_mem Prod.fst ht)
        have hb : (k == hd.1) = false := by simp [beq_iff_eq]; exact hk
        simp only [List.lookup, hb]
        exact ih hnd.2 ht

theorem dupdate_lookup_not_mem (xs acc : List (String × PVal)) (k : String)
    (h : k ∉ xs.map Prod.fst) :
    (dupdate acc xs).lookup k = acc.lookup k := by
  induction xs generalizing acc with
  | nil => simp [dupdate]
  | cons hd tl ih =>
      simp only [List.map, List.mem_cons] at h
      push_neg at h
      unfold dupdate at ih ⊢
      simp only [List.foldl]
      rw [ih _ h.2, dinsert_lookup_ne _ _ _ _ h.1]

theorem dupdate_lookup_mem (xs acc : List (String × PVal)) (k : String)
    (v : PVal) (hnd : (xs.map Prod.fst).Nodup) (hmem : (k, v) ∈ xs) :
    (dupdate acc xs).lookup k = some v := by
  induction xs generalizing acc with
  | nil => simp at hmem
  | cons hd tl ih =>
      simp only [List.map, List.nodup_cons] at hnd
      unfold dupdate
      simp only [List.foldl]
      rcases List.mem_cons.mp hmem with he | ht
      · rw [← he] at hnd ⊢
        rw [show (List.foldl (fun acc kv => dinsert acc kv.1 kv.2)
              (dinsert acc k v) tl) = dupdate (dinsert acc k v) tl from rfl]
        rw [dupdate_lookup_not_mem _ _ _ hnd.1, dinsert_lookup_self]
      · exact ih _ hnd.2 ht

/-!
Name resolver: `_convert_name` applies
`re.sub(r"_(?P<let>[a-z])", lambda m: m.group("let").upper(), name)`.
`convert_chars` is that substitution pass over the character list: at an
underscore followed by an ASCII lower-case letter it emits the upper-cased
letter and consumes both characters; otherwise it emits the current
character and rescans from the next one, exactly as `re.sub` advances.
`upper_zero_group` is `_upper_zero_group` (the captured group upper-cased).
-/

theorem char_isLower_iff (c : Char) : c.isLower = true ↔ 97 ≤ c.toNat ∧ c.toNat ≤ 122 := by
  simp [Char.isLower, UInt32.le_def, BitVec.le_def, Char.toNat, UInt32.toNat]

theorem char_toNat_ofNat (n : Nat) (h : n.isValidChar) : (Char.ofNat n).toNat = n := by
  simp [Char.ofNat, h, Char.ofNatAux, Char.toNat, UInt32.toNat]

theorem toUpper_toNat (c : Char) (h : c.isLower = true) :
    (c.toUpper).toNat = c.toNat - 32 := by
  rw [char_isLower_iff] at h
  have hv : (c.toNat - 32).isValidChar := by
    unfold Nat.isValidChar
    left
    omega
  rw [Char.toUpper]
  simp only [ge_iff_le]
  rw [if_pos ⟨h.1, h.2⟩]
  exact char_toNat_ofNat _ hv

theorem toUpper_not_lower (c : Char) (h : c.isLower = true) :
    (c.toUpper).isLower = false := by
  have ht := toUpper_toNat c h
  rw [char_isLower_iff] at h
  rw [Bool.eq_false_iff]
  intro hl
  rw [char_isLower_iff] at hl
  omega

theorem toUpper_ne_underscore (c : Char) (h : c.isLower = true) :
    ¬(c.toUpper = '_') := by
  have ht := toUpper_toNat c h
  rw [char_isLower_iff] at h
  intro he
  have h95 : (c.toUpper).toNat = 95 := by rw [he]; rfl
  omega

theorem underscore_not_lower : ('_').isLower = false := by decide

def convert_chars : List Char → List Char
  | [] => []
  | c :: rest =>
    if c = '_' then
      match rest with
      | [] => ['_']
      | d :: rest2 =>
        if d.isLower then d.toUpper :: convert_chars rest2
        else '_' :: convert_chars (d :: rest2)
    else c :: convert_chars rest

def head_is_lower : List Char → Bool
  | [] => false
  | c :: _ => c.isLower

def has_match : List Char → Bool
  | [] => false
  | c :: rest => (decide (c = '_') && head_is_lower rest) || has_match rest

theorem convert_chars_underscore_lower (d : Char) (rest2 : List Char)
    (h : d.isLower = true) :
    convert_chars ('_' :: d :: rest2) = d.toUpper :: convert_chars rest2 := by
  rw [convert_chars.eq_def]
  simp [h]

theorem convert_chars_underscore_not_lower (d : Char) (rest2 : List Char)
    (h : ¬d.isLower = true) :
    convert_chars ('_' :: d :: rest2) = '_' :: convert_chars (d :: rest2) := by
  rw [convert_chars.eq_def]
  simp [h]

theorem convert_chars_other (d : Char) (rest2 : List Char) (h : ¬d = '_') :
    convert_chars (d :: rest2) = d :: convert_chars rest2 := by
  rw [convert_chars.eq_def]
  simp [h]

theorem head_not_lower_convert (c : Char) (rest : List Char)
    (h : c.isLower = false) :
    head_is_lower (convert_chars (c :: rest)) = false := by
  by_cases hc : c = '_'
  · subst hc
    cases rest with
    | nil => rfl
    | cons d rest2 =>
        by_cases hd : d.isLower
        · rw [convert_chars_underscore_lower d rest2 hd]
          simp [head_is_lower, toUpper_not_lower d hd]
        · rw [convert_chars_underscore_not_lower d rest2 hd]
          simp [head_is_lower, underscore_not_lower]
  · rw [convert_chars_other c rest hc]
    simp [head_is_lower, h]

theorem has_match_convert_chars (l : List Char) :
    has_match (convert_chars l) = false := by
  induction l using convert_chars.induct with
  | case1 => rfl
  | case2 => rfl
  | case3 d rest2 hd ih =>
      rw [convert_chars_underscore_lower d rest2 hd]
      simp [has_match, ih, toUpper_ne_underscore d hd]
  | case4 d rest2 hd ih =>
      have hd' : d.isLower = false := by simpa using hd
      rw [convert_chars_underscore_not_lower d rest2 hd]
      simp [has_match, ih, head_not_lower_convert d rest2 hd']
  | case5 d rest2 hd ih =>
      rw [convert_chars_other d rest2 hd]
      simp [has_match, ih, hd]

theorem convert_chars_of_no_match (l : List Char) (h : has_match l = false) :
    convert_chars l = l := by
  induction l using convert_chars.induct with
  | case1 => rfl
  | case2 => rfl
  | case3 d rest2 hd ih =>
      exfalso
      simp [has_match, head_is_lower, hd] at h
  | case4 d rest2 hd ih =>
      rw [convert_chars_underscore_not_lower d rest2 hd]
      simp only [has_match, head_is_lower] at h ih ⊢
      rcases Bool.or_eq_false_iff.mp h with ⟨h1, h2⟩
      rw [ih h2]
  | case5 d rest2 hd ih =>
      rw [convert_chars_other d rest2 hd]
      simp only [has_match] at h
      rcases Bool.or_eq_false_iff.mp h with ⟨h1, h2⟩
      rw [ih h2]

theorem convert_chars_idem (l : List Char) :
    convert_chars (convert_chars l) = convert_chars l :=
  convert_chars_of_no_match _ (has_match_convert_chars l)

theorem no_underscore_no_match (l : List Char) (h : l.contains '_' = false) :
    has_match l = false := by
  induction l with
  | nil => rfl
  | cons c rest ih =>
      simp only [List.contains_cons, Bool.or_eq_false_iff] at h
      have h1 : ¬('_' = c) := by simpa using h.1
      have hc : ¬(c = '_') := fun he => h1 he.symm
      simp [has_match, hc, ih h.2]

/-- Model of `API._upper_zero_group`: upper-case the captured letter. -/
def upper_zero_group (c : Char) : Char := c.toUpper

/-- Model of `API._convert_name`: snake_case to camelCase over a string. -/
def convert_name (s : String) : String := String.mk (convert_chars s.data)

/-!
Response side.  `JVal` models a decoded JSON document; `ApiFailure` the
exceptions the dispatch core can raise: `vkApiError` is
`vkquick.exceptions.VkApiError.destruct_response(x)` (that module is not
under src/; modelled from the spec as the typed remote error carrying the
value passed to it verbatim), `keyError` a Python `KeyError`, and
`typeError` the `TypeError` that `in` raises on a non-container.
-/

/-- Decoded JSON values (the response envelope side). -/
inductive JVal where
  | null
  | bool : Bool → JVal
  | num : Int → JVal
  | str : String → JVal
  | arr : List JVal → JVal
  | obj : List (String × JVal) → JVal

/-- Exceptions raised by the dispatch core. -/
inductive ApiFailure where
  | vkApiError : JVal → ApiFailure
  | keyError : String → ApiFailure
  | typeError : ApiFailure

/-- Python equality of a `JVal` with the string literal `"error"`. -/
def is_error_str : JVal → Bool
  | .str s => s = "error"
  | _ => false

/-- Python truthiness (`bool(v)`) of a decoded JSON value. -/
def truthy : JVal → Bool
  | .null => false
  | .bool b => b
  | .num n => decide (n ≠ 0)
  | .str s => decide (s ≠ "")
  | .arr l => !l.isEmpty
  | .obj m => !m.isEmpty

/-- Python `"error" in v`: key membership for a dict, element membership
for a list, substring test for a string, `TypeError` otherwise. -/
def py_contains_error : JVal → Except ApiFailure Bool
  | .obj m => .ok (m.lookup "error").isSome
  | .arr l => .ok (l.any is_error_str)
  | .str s => .ok (decide ((s.splitOn "error").length ≠ 1))
  | _ => .error .typeError

/-- Model of `API._check_errors`: raise the typed remote error
(`VkApiError.destruct_response(response)`, carrying `response`) when
`"error" in response`. -/
def check_errors (response : JVal) : Except ApiFailure Unit :=
  match py_contains_error response with
  | .error e => .error e
  | .ok true => .error (.vkApiError response)
  | .ok false => .ok ()

/-- Modelled from the spec: `vkquick.utils.AttrDict` (the default
`response_factory`) is not under src/; per the spec a wrapped object is a
transparent view over the decoded mapping, so the model just tags the
wrapped value. -/
structure AttrDict where
  data : JVal

/-- The caller-visible normalized result of `_make_api_request`: one
wrapped object, a list of wrapped objects, or a pass-through scalar. -/
inductive ApiResult where
  | one : AttrDict → ApiResult
  | many : List AttrDict → ApiResult
  | scalar : JVal → ApiResult

/-- The post-decode tail of `API._make_api_request`: check the envelope
for an `error` key, then unwrap `body["response"]` by shape. -/
def make_api_request_normalize (body : List (String × JVal)) :
    Except ApiFailure ApiResult :=
  match check_errors (.obj body) with
  | .error e => .error e
  | .ok () =>
    match body.lookup "response" with
    | none => .error (.keyError "response")
    | some (.obj m) => .ok (.one (AttrDict.mk (.obj m)))
    | some (.arr l) => .ok (.many (l.map AttrDict.mk))
    | some v => .ok (.scalar v)

/-- The two credential classes (`TokenOwner` enum in the source). -/
inductive TokenOwner where
  | GROUP
  | USER
deriving DecidableEq

/-- The post-decode tail of `API.define_token_owner` (the HTTP probe and
JSON decode are external collaborators; `resp` is the decoded probe
envelope).  The source runs `API._check_errors(resp["response"])` — the
check is applied to the value under `"response"`, not to the envelope —
and then classifies by the truthiness of `resp["response"]`. -/
def define_token_owner (resp : List (String × JVal)) :
    Except ApiFailure TokenOwner :=
  match resp.lookup "response" with
  | none => .error (.keyError "response")
  | some v =>
    match check_errors v with
    | .error e => .error e
    | .ok () => .ok (if truthy v then TokenOwner.USER else TokenOwner.GROUP)

/-- Minimum inter-request interval selected in `__post_init__`:
`1 / 3 if self.token_owner == TokenOwner.USER else 1 / 20` (seconds,
modelled as exact rationals). -/
def delay_for (owner : TokenOwner) : ℚ :=
  if owner = TokenOwner.USER then 1/3 else 1/20

/-- One step of `API._waiting` at wall-clock time `now`, given the stored
`_last_request_time` and `_delay`: returns the sleep duration passed to
`asyncio.sleep` (0 when no sleep happens) and the new
`_last_request_time`. -/
def waiting_step (delay last_request_time now : ℚ) : ℚ × ℚ :=
  let diff := now - last_request_time
  if diff < delay then (delay - diff, last_request_time + delay)
  else (0, now)

/-!
Dispatcher state.  `ApiState` carries the fields of the `API` dataclass
the dispatch path reads or writes; `api_getattr` is `__getattr__`,
`api_call` is `__call__` up to the point where the coroutine
`_make_api_request(...)` is created and returned (the accumulator reset
`self._method_name = str()` happens before that), and `dispatch`
composes it with the post-decode normalization of `_make_api_request`
for an injected transport response.
-/

/-- Flattened form of one parameter value (`",".join(map(str, value))`
for a list, set or tuple; unchanged otherwise). -/
def flat_val : PVal → PVal
  | .list l => .str (String.intercalate "," (l.map pstr))
  | .set l => .str (String.intercalate "," (l.map pstr))
  | .tuple l => .str (String.intercalate "," (l.map pstr))
  | v => v

/-- One iteration of the flattening loop in `_make_api_request`:
`request_params[key] = ",".join(map(str, value))` when the value is a
list, set or tuple, no assignment otherwise. -/
def flat_step (acc : List (String × PVal)) (kv : String × PVal) :
    List (String × PVal) :=
  match kv.2 with
  | PVal.list l => dinsert acc kv.1 (PVal.str (String.intercalate "," (l.map pstr)))
  | PVal.set l => dinsert acc kv.1 (PVal.str (String.intercalate "," (l.map pstr)))
  | PVal.tuple l => dinsert acc kv.1 (PVal.str (String.intercalate "," (l.map pstr)))
  | _ => acc

/-- The flattening loop of `_make_api_request`: iterate over the items of
`request_params`, replacing collection values in place. -/
def flatten_params (d : List (String × PVal)) : List (String × PVal) :=
  d.foldl flat_step d

/-- The fields of the `API` dataclass used on the dispatch path. -/
structure ApiState where
  token : String
  version : PVal
  autocomplete_params : List (String × PVal)
  method_name : String

/-- The method name and parameters handed to `_make_api_request`. -/
structure PendingRequest where
  method_name : String
  request_params : List (String × PVal)

/-- Model of `API._fill_request_params`:
`{"access_token": self.token, "v": self.version, **params}`. -/
def fill_request_params (st : ApiState) (params : List (String × PVal)) :
    List (String × PVal) :=
  dupdate [("access_token", PVal.str st.token), ("v", st.version)] params

/-- Model of `API.__getattr__`: convert the segment and append it to the
accumulated method name. -/
def api_getattr (st : ApiState) (attr : String) : ApiState :=
  let attr := convert_name attr
  if st.method_name ≠ "" then
    { st with method_name := st.method_name ++ "." ++ attr }
  else
    { st with method_name := attr }

/-- Model of `API.__call__`: convert the accumulated name, merge default
and caller parameters, optionally overlay `autocomplete_params`, reset
the accumulator, and hand the pending request to `_make_api_request`. -/
def api_call (st : ApiState) (use_autocomplete_params_ : Bool)
    (request_params : List (String × PVal)) : ApiState × PendingRequest :=
  let method_name := convert_name st.method_name
  let rp := fill_request_params st request_params
  let rp := if use_autocomplete_params_ then dupdate rp st.autocomplete_params
            else rp
  let st := { st with method_name := "" }
  (st, PendingRequest.mk method_name rp)

/-- Model of `API.method`: like `__call__` but with the method name
passed as a string; it does not touch the accumulator. -/
def api_method (st : ApiState) (method_name : String)
    (request_params : List (String × PVal)) : PendingRequest :=
  let method_name := convert_name method_name
  let rp := fill_request_params st request_params
  PendingRequest.mk method_name rp

/-- The body of `_make_api_request` for an injected decoded transport
response: flatten the request parameters, then normalize the envelope. -/
def make_api_request (req : PendingRequest) (body : List (String × JVal)) :
    List (String × PVal) × Except ApiFailure ApiResult :=
  (flatten_params req.request_params, make_api_request_normalize body)

/-- A full dispatch of `__call__` followed by `_make_api_request` on a
decoded transport response `body` (success or error envelope). -/
def dispatch (st : ApiState) (use_autocomplete_params_ : Bool)
    (params : List (String × PVal)) (body : List (String × JVal)) :
    ApiState × Except ApiFailure ApiResult :=
  let (st2, req) := api_call st use_autocomplete_params_ params
  (st2, (make_api_request req body).2)

/-!
A tiny explicit heap of dictionaries, used to state the frame property
that neither `method` nor `__call__` mutates the caller-supplied
parameter dictionary: `_fill_request_params` allocates a fresh
dictionary and the in-place flattening of `_make_api_request` writes
only to that fresh reference.
-/

/-- A heap of Python dictionaries: a store indexed by references and the
next fresh reference. -/
structure DictHeap where
  store : Nat → List (String × PVal)
  next : Nat

/-- Overwrite the dictionary at reference `r`. -/
def heap_write (h : DictHeap) (r : Nat) (d : List (String × PVal)) :
    DictHeap :=
  DictHeap.mk (fun x => if x = r then d else h.store x) h.next

/-- Allocate a fresh dictionary, returning the new heap and reference. -/
def heap_alloc (h : DictHeap) (d : List (String × PVal)) : DictHeap × Nat :=
  (DictHeap.mk (fun x => if x = h.next then d else h.store x) (h.next + 1),
    h.next)

/-- Heap-level model of `API.method` applied to the caller dictionary at
reference `pref`: `_fill_request_params` builds a fresh dictionary from
the caller's entries, and `_make_api_request` flattens that fresh
dictionary in place. -/
def method_heap (st : ApiState) (mname : String) (h : DictHeap)
    (pref : Nat) : DictHeap × PendingRequest :=
  let mname := convert_name mname
  let ar := heap_alloc h (fill_request_params st (h.store pref))
  let h3 := heap_write ar.1 ar.2 (flatten_params (ar.1.store ar.2))
  (h3, PendingRequest.mk mname (h3.store ar.2))

/-- Heap-level model of `API.__call__` (with the optional autocomplete
overlay, which `dict.update`s the fresh dictionary in place). -/
def call_heap (st : ApiState) (use_autocomplete_params_ : Bool)
    (h : DictHeap) (pref : Nat) : DictHeap × PendingRequest :=
  let mname := convert_name st.method_name
  let ar := heap_alloc h (fill_request_params st (h.store pref))
  let h2 := if use_autocomplete_params_ then
      heap_write ar.1 ar.2 (dupdate (ar.1.store ar.2) st.autocomplete_params)
    else ar.1
  let h3 := heap_write h2 ar.2 (flatten_params (h2.store ar.2))
  (h3, PendingRequest.mk mname (h3.store ar.2))

theorem flat_step_lookup_ne (acc : List (String × PVal)) (kv : String × PVal)
    (k : String) (h : k ≠ kv.1) :
    (flat_step acc kv).lookup k = acc.lookup k := by
  unfold flat_step
  cases kv.2 <;> simp [dinsert_lookup_ne _ _ _ _ h]

theorem flatten_fold_not_mem (xs acc : List (String × PVal)) (k : String)
    (h : k ∉ xs.map Prod.fst) :
    (xs.foldl flat_step acc).lookup k = acc.lookup k := by
  induction xs generalizing acc with
  | nil => simp
  | cons hd tl ih =>
      have h1 : k ≠ hd.1 := by
        intro he
        exact h (List.mem_cons.mpr (Or.inl he))
      have h2 : k ∉ tl.map Prod.fst := by
        intro hm
        exact h (List.mem_cons.mpr (Or.inr hm))
      simp only [List.foldl]
      rw [ih _ h2, flat_step_lookup_ne _ _ _ h1]

theorem flat_step_lookup_self (acc : List (String × PVal)) (k : String)
    (v : PVal) (hacc : acc.lookup k = some v) :
    (flat_step acc (k, v)).lookup k = some (flat_val v) := by
  unfold flat_step flat_val
  cases v <;> simp [dinsert_lookup_self, hacc]

theorem flatten_fold_mem (xs acc : List (String × PVal)) (k : String)
    (v : PVal) (hnd : (xs.map Prod.fst).Nodup) (hmem : (k, v) ∈ xs)
    (hacc : acc.lookup k = some v) :
    (xs.foldl flat_step acc).lookup k = some (flat_val v) := by
  induction xs generalizing acc with
  | nil => simp at hmem
  | cons hd tl ih =>
      rw [List.map_cons, List.nodup_cons] at hnd
      simp only [List.foldl]
      rcases List.mem_cons.mp hmem with he | ht
      · rw [← he] at hnd ⊢
        rw [flatten_fold_not_mem _ _ _ hnd.1]
        exact flat_step_lookup_self acc k v hacc
      · have hk : k ≠ hd.1 := by
          intro heq
          exact hnd.1 (heq ▸ List.mem_map_of_mem Prod.fst ht)
        refine ih _ hnd.2 ht ?_
        rw [flat_step_lookup_ne _ _ _ hk]
        exact hacc

theorem flatten_params_lookup (d : List (String × PVal)) (k : String)
    (v : PVal) (hnd : (d.map Prod.fst).Nodup) (hmem : (k, v) ∈ d) :
    (flatten_params d).lookup k = some (flat_val v) := by
  unfold flatten_params
  exact flatten_fold_mem d d k v hnd hmem (lookup_of_mem_nodup d k v hnd hmem)

/-- Unfolding of `make_api_request_normalize` on an envelope without an
`error` key. -/
theorem normalize_unfold (body : List (String × JVal))
    (herr : body.lookup "error" = none) :
    make_api_request_normalize body =
      match body.lookup "response" with
      | none => .error (.keyError "response")
      | some (.obj m) => .ok (.one (AttrDict.mk (.obj m)))
      | some (.arr l) => .ok (.many (l.map AttrDict.mk))
      | some v => .ok (.scalar v) := by
  have h1 : py_contains_error (JVal.obj body) = .ok false := by
    simp [py_contains_error, herr]
  have h2 : check_errors (JVal.obj body) = .ok () := by
    unfold check_errors
    rw [h1]
  unfold make_api_request_normalize
  rw [h2]

/-- C1: in `_waiting` with `_delay > 0`, when the elapsed time since
`_last_request_time` is at least the delay the call does not sleep and
records `now`; when it is smaller the call sleeps exactly
`delay - elapsed` and records `previous + delay` (the virtual-schedule
anchor), not the wall-clock time after waking. -/
theorem waiting_spec (delay last_request_time now : ℚ)
    (hd : 0 < delay) :
    (delay ≤ now - last_request_time →
      waiting_step delay last_request_time now = (0, now)) ∧
    (now - last_request_time < delay →
      waiting_step delay last_request_time now =
        (delay - (now - last_request_time), last_request_time + delay)) := by
  constructor
  · intro h
    unfold waiting_step
    rw [if_neg (not_lt.mpr h)]
  · intro h
    unfold waiting_step
    rw [if_pos h]

theorem waiting_spec_witness :
    waiting_step (1/3) 0 (1/6) = (1/6, 1/3) := by
  have h := (waiting_spec (1/3) 0 (1/6) (by norm_num)).2 (by norm_num)
  norm_num at h
  exact h
/-- C2: normalization raises the typed remote API error iff the envelope
has an `error` key; otherwise a mapping under `response` is returned as
one wrapped object, a sequence as a same-length same-order sequence of
wrapped objects, and any other value unchanged as a scalar. -/
theorem normalize_response_spec (body : List (String × JVal)) :
    ((∃ p, make_api_request_normalize body =
        .error (.vkApiError p)) ↔ (body.lookup "error").isSome = true) ∧
    (∀ m, body.lookup "error" = none →
      body.lookup "response" = some (.obj m) →
      make_api_request_normalize body = .ok (.one (AttrDict.mk (.obj m)))) ∧
    (∀ l, body.lookup "error" = none →
      body.lookup "response" = some (.arr l) →
      make_api_request_normalize body = .ok (.many (l.map AttrDict.mk)) ∧
      (l.map AttrDict.mk).length = l.length ∧
      (∀ i, (l.map AttrDict.mk).get? i = (l.get? i).map AttrDict.mk)) ∧
    (∀ v, body.lookup "error" = none →
      body.lookup "response" = some v →
      (∀ m, v ≠ JVal.obj m) → (∀ l, v ≠ JVal.arr l) →
      make_api_request_normalize body = .ok (.scalar v)) := by
  refine ⟨?_, ?_, ?_, ?_⟩
  · cases herr : body.lookup "error" with
    | some e =>
        simp only [Option.isSome_some, iff_true]
        refine ⟨JVal.obj body, ?_⟩
        have h2 : check_errors (JVal.obj body) =
            .error (.vkApiError (JVal.obj body)) := by
          unfold check_errors
          rw [show py_contains_error (JVal.obj body) =
            .ok (body.lookup "error").isSome from rfl, herr]
          rfl
        unfold make_api_request_normalize
        rw [h2]
    | none =>
        simp only [Option.isSome_none, Bool.false_eq_true, iff_false]
        rintro ⟨p, hp⟩
        rw [normalize_unfold body herr] at hp
        cases hresp : body.lookup "response" with
        | none => rw [hresp] at hp; exact absurd hp (by simp)
        | some v =>
            rw [hresp] at hp
            cases v <;> simp at hp
  · intro m herr hresp
    rw [normalize_unfold body herr, hresp]
  · intro l herr hresp
    refine ⟨?_, by simp, ?_⟩
    · rw [normalize_unfold body herr, hresp]
    · intro i
      simp
  · intro v herr hresp hobj harr
    rw [normalize_unfold body herr, hresp]
    cases v with
    | obj m => exact absurd rfl (hobj m)
    | arr l => exact absurd rfl (harr l)
    | null => rfl
    | bool b => rfl
    | num n => rfl
    | str s => rfl

theorem normalize_response_spec_witness :
    make_api_request_normalize
        [("response", JVal.arr [JVal.obj [("id", JVal.num 1)],
          JVal.obj [("id", JVal.num 2)]])] =
      .ok (.many [AttrDict.mk (JVal.obj [("id", JVal.num 1)]),
        AttrDict.mk (JVal.obj [("id", JVal.num 2)])]) := by
  have h := ((normalize_response_spec
      [("response", JVal.arr [JVal.obj [("id", JVal.num 1)],
        JVal.obj [("id", JVal.num 2)]])]).2.2.1
      [JVal.obj [("id", JVal.num 1)], JVal.obj [("id", JVal.num 2)]]
      rfl rfl).1
  simpa using h

/-- C3: evaluation of the classification probe tail on an error envelope.
The claim says the typed API error is raised; the code instead evaluates
`resp["response"]` first (inside `API._check_errors(resp["response"])`),
so an error envelope — which has no `response` key — raises `KeyError`,
not `VkApiError`. -/
theorem define_token_owner_error_envelope :
    define_token_owner
        [("error", JVal.obj [("error_code", JVal.num 5),
          ("error_msg", JVal.str "bad token")])] =
      .error (.keyError "response") := rfl

/-- C4: an empty probe `response` yields the group/service class with a
1/20 s interval; a non-empty one yields the user class with a 1/3 s
interval, the longer of the two by a factor of 20/3 (between 6 and 7).
The hypothesis `hnoerr` records that the (misplaced) error check on the
inner value passes, as it does for any array of non-string elements. -/
theorem classification_delay_spec (resp : List (String × JVal))
    (l : List JVal)
    (hresp : resp.lookup "response" = some (JVal.arr l))
    (hnoerr : l.any is_error_str = false) :
    (l = [] → define_token_owner resp = .ok TokenOwner.GROUP ∧
      delay_for TokenOwner.GROUP = 1/20) ∧
    (l ≠ [] → define_token_owner resp = .ok TokenOwner.USER ∧
      delay_for TokenOwner.USER = 1/3) ∧
    delay_for TokenOwner.GROUP < delay_for TokenOwner.USER ∧
    delay_for TokenOwner.USER / delay_for TokenOwner.GROUP = 20/3 ∧
    6 ≤ delay_for TokenOwner.USER / delay_for TokenOwner.GROUP ∧
    delay_for TokenOwner.USER / delay_for TokenOwner.GROUP ≤ 7 := by
  have hck : check_errors (JVal.arr l) = .ok () := by
    unfold check_errors
    rw [show py_contains_error (JVal.arr l) =
      .ok (l.any is_error_str) from rfl, hnoerr]
  have hG : delay_for TokenOwner.GROUP = 1/20 := rfl
  have hU : delay_for TokenOwner.USER = 1/3 := rfl
  have hdto : define_token_owner resp =
      .ok (if truthy (JVal.arr l) then TokenOwner.USER else TokenOwner.GROUP) := by
    unfold define_token_owner
    rw [hresp]
    show (match check_errors (JVal.arr l) with
      | .error e => Except.error e
      | .ok () => Except.ok
          (if truthy (JVal.arr l) then TokenOwner.USER else TokenOwner.GROUP)) = _
    rw [hck]
  refine ⟨?_, ?_, ?_, ?_, ?_, ?_⟩
  · intro he
    subst he
    exact ⟨hdto, hG⟩
  · intro hne
    have ht : truthy (JVal.arr l) = true := by
      simp [truthy, List.isEmpty_iff]
      exact hne
    rw [hdto, ht]
    exact ⟨rfl, hU⟩
  · rw [hG, hU]; norm_num
  · rw [hG, hU]; norm_num
  · rw [hG, hU]; norm_num
  · rw [hG, hU]; norm_num

theorem classification_delay_spec_witness :
    (define_token_owner [("response", JVal.arr [])] = .ok TokenOwner.GROUP ∧
      delay_for TokenOwner.GROUP = 1/20) ∧
    (define_token_owner
        [("response", JVal.arr [JVal.obj [("id", JVal.num 1)]])] =
      .ok TokenOwner.USER ∧ delay_for TokenOwner.USER = 1/3) :=
  ⟨(classification_delay_spec [("response", JVal.arr [])] [] rfl rfl).1 rfl,
    (classification_delay_spec
      [("response", JVal.arr [JVal.obj [("id", JVal.num 1)]])]
      [JVal.obj [("id", JVal.num 1)]] rfl rfl).2.1 (by simp)⟩

/-- C5: the merged request parameters map every caller-supplied key to
the caller's value (the caller wins over the `access_token` and `v`
defaults on collision), and carry the defaults exactly for the keys the
caller did not supply. -/
theorem fill_request_params_spec (st : ApiState)
    (params : List (String × PVal))
    (hnd : (params.map Prod.fst).Nodup) :
    (∀ k v, (k, v) ∈ params →
      (fill_request_params st params).lookup k = some v) ∧
    (params.lookup "access_token" = none →
      (fill_request_params st params).lookup "access_token" =
        some (PVal.str st.token)) ∧
    (params.lookup "v" = none →
      (fill_request_params st params).lookup "v" = some st.version) := by
  refine ⟨?_, ?_, ?_⟩
  · intro k v hmem
    exact dupdate_lookup_mem params _ k v hnd hmem
  · intro hnone
    unfold fill_request_params
    rw [dupdate_lookup_not_mem _ _ _
      (not_mem_keys_of_lookup_eq_none _ _ hnone)]
    rfl
  · intro hnone
    unfold fill_request_params
    rw [dupdate_lookup_not_mem _ _ _
      (not_mem_keys_of_lookup_eq_none _ _ hnone)]
    rfl

theorem fill_request_params_spec_witness :
    (fill_request_params (ApiState.mk "tok" (PVal.str "5.133") [] "")
        [("access_token", PVal.str "other"), ("peer_ids", PVal.int 1)]).lookup
      "access_token" = some (PVal.str "other") :=
  (fill_request_params_spec (ApiState.mk "tok" (PVal.str "5.133") [] "")
      [("access_token", PVal.str "other"), ("peer_ids", PVal.int 1)]
      (by decide)).1
    "access_token" (PVal.str "other") (List.mem_cons_self _ _)

/-- C6: encoding replaces every list- or tuple-valued parameter by the
comma-joined string of its elements' string forms in their original
order, and leaves every non-collection value unchanged. -/
theorem flatten_params_spec (d : List (String × PVal))
    (hnd : (d.map Prod.fst).Nodup) :
    (∀ k l, (k, PVal.list l) ∈ d →
      (flatten_params d).lookup k =
        some (PVal.str (String.intercalate "," (l.map pstr)))) ∧
    (∀ k l, (k, PVal.tuple l) ∈ d →
      (flatten_params d).lookup k =
        some (PVal.str (String.intercalate "," (l.map pstr)))) ∧
    (∀ k v, (k, v) ∈ d → (∀ l, v ≠ PVal.list l) →
      (∀ l, v ≠ PVal.set l) → (∀ l, v ≠ PVal.tuple l) →
      (flatten_params d).lookup k = some v) := by
  refine ⟨?_, ?_, ?_⟩
  · intro k l hmem
    exact flatten_params_lookup d k _ hnd hmem
  · intro k l hmem
    exact flatten_params_lookup d k _ hnd hmem
  · intro k v hmem h1 h2 h3
    have hv : flat_val v = v := by
      cases v with
      | list l => exact absurd rfl (h1 l)
      | set l => exact absurd rfl (h2 l)
      | tuple l => exact absurd rfl (h3 l)
      | str s => rfl
      | int n => rfl
      | bool b => rfl
    rw [flatten_params_lookup d k v hnd hmem, hv]

theorem flatten_params_spec_witness :
    (flatten_params
        [("peer_ids", PVal.list [PVal.int 1, PVal.int 2, PVal.int 3])]).lookup
      "peer_ids" = some (PVal.str "1,2,3") := by
  have h := (flatten_params_spec
      [("peer_ids", PVal.list [PVal.int 1, PVal.int 2, PVal.int 3])]
      (by decide)).1 "peer_ids"
      [PVal.int 1, PVal.int 2, PVal.int 3] (List.mem_cons_self _ _)
  exact h

/-- C7: the snake_case-to-camelCase conversion `_convert_name` is
idempotent on every input string, and in particular leaves a string
without underscores unchanged, so the second conversion applied by
`__call__` to the name already converted segment-by-segment by
`__getattr__` never corrupts it. -/
theorem convert_name_idempotent :
    (∀ s : String, convert_name (convert_name s) = convert_name s) ∧
    (∀ s : String, s.data.contains '_' = false → convert_name s = s) := by
  constructor
  · intro s
    unfold convert_name
    rw [show (String.mk (convert_chars s.data)).data =
      convert_chars s.data from rfl]
    rw [convert_chars_idem]
  · intro s h
    unfold convert_name
    rw [convert_chars_of_no_match _ (no_underscore_no_match _ h)]

theorem convert_name_idempotent_witness :
    convert_name "getConversationsById" = "getConversationsById" :=
  convert_name_idempotent.2 "getConversationsById" (by decide)

/-- C8: `__call__` resets the method-name accumulator to the empty
string before the dispatched request runs, so the state after a full
dispatch has an empty accumulator whatever the decoded response `body`
is (success or error envelope), and a fresh call can be composed
immediately. -/
theorem call_resets_method_name (st : ApiState)
    (use_autocomplete_params_ : Bool) (params : List (String × PVal))
    (body : List (String × JVal)) :
    ((dispatch st use_autocomplete_params_ params body).1).method_name = "" ∧
    ((api_call st use_autocomplete_params_ params).1).method_name = "" :=
  ⟨rfl, rfl⟩

/-- C9: with `use_autocomplete_params_` set, every key of
`autocomplete_params` ends up mapped to its autocomplete value in the
final request parameters, overriding both the defaults and any
caller-supplied value for the same key, because the `update` happens
after `_fill_request_params`. -/
theorem autocomplete_overrides (st : ApiState)
    (params : List (String × PVal)) (k : String) (v : PVal)
    (hnd : (st.autocomplete_params.map Prod.fst).Nodup)
    (hmem : (k, v) ∈ st.autocomplete_params) :
    ((api_call st true params).2.request_params).lookup k = some v :=
  dupdate_lookup_mem _ _ k v hnd hmem

theorem autocomplete_overrides_witness :
    ((api_call (ApiState.mk "tok" (PVal.str "5.133")
        [("group_id", PVal.int 123)] "users.get") true
        [("group_id", PVal.int 999)]).2.request_params).lookup "group_id" =
      some (PVal.int 123) :=
  autocomplete_overrides (ApiState.mk "tok" (PVal.str "5.133")
      [("group_id", PVal.int 123)] "users.get")
    [("group_id", PVal.int 999)] "group_id" (PVal.int 123)
    (by decide) (List.mem_cons_self _ _)

/-- C10: neither `method` nor `__call__` mutates the caller-supplied
parameter dictionary: `_fill_request_params` allocates a fresh
dictionary and the in-place flattening (and autocomplete update) writes
only to that fresh reference, so the caller's reference still holds its
original entries afterwards. -/
theorem method_call_no_mutation (st : ApiState) (mname : String)
    (h : DictHeap) (pref : Nat) (hp : pref < h.next) :
    ((method_heap st mname h pref).1).store pref = h.store pref ∧
    (∀ b, ((call_heap st b h pref).1).store pref = h.store pref) := by
  have hne : pref ≠ h.next := Nat.ne_of_lt hp
  constructor
  · unfold method_heap heap_alloc heap_write
    simp [hne]
  · intro b
    unfold call_heap heap_alloc heap_write
    cases b <;> simp [hne]

theorem method_call_no_mutation_witness :
    (0 : Nat) < 1 ∧
    ((method_heap (ApiState.mk "tok" (PVal.str "5.133") [] "") "users.get"
        (DictHeap.mk (fun _ => [("peer_ids", PVal.int 1)]) 1) 0).1).store 0 =
      [("peer_ids", PVal.int 1)] :=
  ⟨by decide,
    (method_call_no_mutation (ApiState.mk "tok" (PVal.str "5.133") [] "")
      "users.get" (DictHeap.mk (fun _ => [("peer_ids", PVal.int 1)]) 1) 0
      (by decide)).1⟩
